import Mathlib

/-!
# Verification of the sequence-labeling preprocessing layer

Shallow embedding of `src/utils/preprocessing.py` from the
BanglaKeyphraseExtraction project: the label encoder `make_sequential`,
the one-hot expansion `make_categorical`, the post-padding transform
used by `prepare_sequential`, and the embedding-matrix construction.

Python dictionaries are modelled as association lists (Python dicts
iterate in insertion order and have unique keys); token strings are
`String`; numpy float matrices whose entries are only ever copied, never
arithmetically combined, are modelled with integer entries.
-/

namespace Preproc

/-- The keyphrase-length comparison used by `doc_answers_set.sort(key=lambda a: len(a))`:
ascending by token count. -/
def lenLE (a b : List String) : Prop := a.length ≤ b.length

instance : DecidableRel lenLE := fun a b => Nat.decLe a.length b.length

instance : IsTotal (List String) lenLE := ⟨fun a b => Nat.le_total a.length b.length⟩

instance : IsTrans (List String) lenLE := ⟨fun _ _ _ h1 h2 => Nat.le_trans h1 h2⟩

/-- The sort `doc_answers_set.sort(key=lambda a: len(a))`. Python's `list.sort` is a
stable ascending sort by the key; `List.insertionSort` with `lenLE` is the
extensionally identical stable sort (stable sorts under a total preorder
agree pointwise). -/
def sortKPs (l : List (List String)) : List (List String) :=
  List.insertionSort lenLE l

/-- The list `appearances = [i for i, word in enumerate(document) if word == answer[0]]`
(line 496): the positions where the keyphrase's first token occurs. -/
def appearances (document answer : List String) : List Nat :=
  (List.range document.length).filter
    (fun i => document.getD i "" == answer.getD 0 "")

/-- The inner verification loop of `make_sequential` (lines 498-506):

    is_kp = True
    for i in range(1, len(answer)):
        if (i + idx) < len(document):
            is_kp = answer[i] == document[i + idx]
        else:
            is_kp = False

Note that each iteration overwrites `is_kp` rather than conjoining, so the
final value is decided by the last iteration alone. -/
def isKPLoop (document answer : List String) (idx : Nat) : Bool :=
  (List.range' 1 (answer.length - 1)).foldl
    (fun _ i =>
      if i + idx < document.length then
        answer.getD i "" == document.getD (i + idx) ""
      else
        false)
    true

/-- Writing the labels of one full match (lines 509-512):
`doc_answers_seq[idx] = 1` followed by `doc_answers_seq[idx + i] = 2`
for `i in range(1, len(answer))`. -/
def applyKP (seq : List Nat) (idx : Nat) (alen : Nat) : List Nat :=
  (List.range' 1 (alen - 1)).foldl (fun s i => s.set (idx + i) 2) (seq.set idx 1)

/-- Processing one keyphrase (lines 494-512): for every appearance of the
first token, test `isKPLoop` and on success write the labels. -/
def processAnswer (document answer : List String) (seq : List Nat) : List Nat :=
  (appearances document answer).foldl
    (fun s idx => if isKPLoop document answer idx then applyKP s idx answer.length else s)
    seq

/-- The per-document body of `make_sequential` (lines 482-517): start from an
all-zero sequence of the document's length and process the keyphrases in
the given (already sorted) order. -/
def make_sequential_doc (document : List String) (answersSorted : List (List String)) :
    List Nat :=
  answersSorted.foldl (fun s a => processAnswer document a s)
    (List.replicate document.length 0)

/-- In-place update of `answers[key]` in the association-list model of a
Python dict (the `.sort()` on line 487 mutates the stored list). -/
def astore {α : Type} (l : List (String × α)) (k : String) (v : α) :
    List (String × α) :=
  l.map (fun kv => if kv.1 == k then (kv.1, v) else kv)

/-- One iteration of the `for key, document in documents.items()` loop of
`make_sequential` (lines 482-517), acting on the state (documents store,
answers store, output so far): sort `answers[key]` in place, then append
this document's label sequence to the output. -/
def msStep
    (st : List (String × List String) × List (String × List (List String)) ×
      List (String × List Nat))
    (kd : String × List String) :
    List (String × List String) × List (String × List (List String)) ×
      List (String × List Nat) :=
  let sorted := sortKPs ((st.2.1.lookup kd.1).getD [])
  (st.1, astore st.2.1 kd.1 sorted,
    st.2.2 ++ [(kd.1, make_sequential_doc kd.2 sorted)])

/-- State-passing embedding of `make_sequential(documents, answers)`
(lines 458-519). The Python function mutates `answers[key]` by sorting it
in place and returns a dict of label sequences; `documents` is only read.
The result is the triple (final `documents` state, final `answers` state,
returned `seq_answers`), with `seq_answers` built in document-iteration
order. -/
def make_sequential_st (documents : List (String × List String))
    (answers : List (String × List (List String))) :
    List (String × List String) × List (String × List (List String)) ×
      List (String × List Nat) :=
  documents.foldl msStep (documents, answers, [])

/-- The dict returned by `make_sequential`. -/
def make_sequential (documents : List (String × List String))
    (answers : List (String × List (List String))) : List (String × List Nat) :=
  (make_sequential_st documents answers).2.2

/-! ## Characterization of the verification loop -/

/-- A fold whose step function ignores the accumulator returns the image of
the last element (or the initial value on an empty list). -/
theorem foldl_ignore {β : Type} (g : Nat → β) :
    ∀ (l : List Nat) (b : β), l.foldl (fun _ i => g i) b = l.getLast?.elim b g
  | [], _ => rfl
  | [_], _ => rfl
  | x :: y :: ys, b => by
    rw [List.foldl_cons, foldl_ignore g (y :: ys) (g x), List.getLast?_cons_cons,
      List.getLast?_eq_getLast (y :: ys) (by simp), Option.elim_some, Option.elim_some]

/-- Because the Python loop overwrites `is_kp` on every iteration, for a
keyphrase of at least two tokens the loop's outcome is exactly the test of
the final iteration: the phrase fits in the document and its last token
matches there. -/
theorem isKPLoop_eq (document answer : List String) (idx : Nat)
    (h : 2 ≤ answer.length) :
    isKPLoop document answer idx =
      (decide (answer.length - 1 + idx < document.length) &&
        (answer.getD (answer.length - 1) "" ==
          document.getD (answer.length - 1 + idx) "")) := by
  unfold isKPLoop
  rw [foldl_ignore, List.getLast?_range']
  have h1 : ¬(answer.length - 1 = 0) := by omega
  rw [if_neg h1]
  have h2 : 1 + (answer.length - 1) - 1 = answer.length - 1 := by omega
  rw [h2, Option.elim]
  by_cases h3 : answer.length - 1 + idx < document.length
  · rw [if_pos h3, decide_eq_true h3, Bool.true_and]
  · rw [if_neg h3, decide_eq_false h3, Bool.false_and]

/-- Membership in `appearances`: a position of the document whose token
equals the keyphrase's first token. -/
theorem mem_appearances (document answer : List String) (idx : Nat) :
    idx ∈ appearances document answer ↔
      idx < document.length ∧ document.getD idx "" = answer.getD 0 "" := by
  unfold appearances
  rw [List.mem_filter, List.mem_range]
  simp only [beq_iff_eq]

/-- C5: for every document D and keyphrase k with |k| ≥ 2, `make_sequential`
writes labels for an occurrence at position idx if and only if
D[idx] = k[0], idx + |k| ≤ |D|, and D[idx + |k| - 1] = k[|k| - 1]; the
tokens of k strictly between the first and the last are not required to
match the document (the inner loop overwrites its flag, so only the last
comparison survives). -/
theorem C5_match_iff_first_last_and_fit (D k : List String) (idx : Nat)
    (hk : 2 ≤ k.length) :
    (idx ∈ appearances D k ∧ isKPLoop D k idx = true) ↔
      (D.getD idx "" = k.getD 0 "" ∧ idx + k.length ≤ D.length ∧
        D.getD (idx + k.length - 1) "" = k.getD (k.length - 1) "") := by
  rw [mem_appearances, isKPLoop_eq D k idx hk]
  rw [Bool.and_eq_true, decide_eq_true_eq, beq_iff_eq]
  constructor
  · rintro ⟨⟨_, hfirst⟩, hfit, hlast⟩
    refine ⟨hfirst, by omega, ?_⟩
    have : idx + k.length - 1 = k.length - 1 + idx := by omega
    rw [this, hlast]
  · rintro ⟨hfirst, hfit, hlast⟩
    refine ⟨⟨by omega, hfirst⟩, by omega, ?_⟩
    have : idx + k.length - 1 = k.length - 1 + idx := by omega
    rw [← this, hlast]

/-- C5 witness: in document ["a","x","c"] with keyphrase ["a","b","c"],
position 0 counts as a full occurrence although the middle token differs. -/
theorem C5_match_iff_first_last_and_fit_witness :
    0 ∈ appearances ["a", "x", "c"] ["a", "b", "c"] ∧
      isKPLoop ["a", "x", "c"] ["a", "b", "c"] 0 = true :=
  (C5_match_iff_first_last_and_fit ["a", "x", "c"] ["a", "b", "c"] 0
    (by decide)).mpr ⟨by decide, by decide, by decide⟩

/-! ## C1: the full-match verification the spec describes does not happen -/

/-- C1: the claim states labels are applied at idx only after every token of
the keyphrase is verified to match the document there. The code contradicts
this: with document ["a","x","c"] and keyphrase ["a","b","c"], the middle
tokens differ ("x" vs "b") yet the occurrence is labeled [1,2,2], because
the inner loop overwrites `is_kp` each iteration so only the last token is
actually checked. -/
theorem C1_middle_token_mismatch_still_labeled :
    make_sequential [("k", ["a", "x", "c"])] [("k", [["a", "b", "c"]])]
        = [("k", [1, 2, 2])] ∧
      (["a", "x", "c"] : List String).getD 1 ""
        ≠ (["a", "b", "c"] : List String).getD 1 "" := by
  constructor
  · decide
  · decide

/-! ## C2: stable ascending sort by phrase length; longer phrase wins -/

/-- C2: each document's keyphrases are processed sorted ascending by token
count, stably for equal lengths (`sortKPs` is the sort applied by
`make_sequential_st`); hence in document [a,b,c] with keyphrases
\x7b[b]\x7d,\x7b[b,c]\x7d the longer phrase is applied last and the result
is [0,1,2], not [0,1,0] — in either input order of the keyphrases. -/
theorem C2_sort_ascending_stable_longer_wins :
    (∀ l : List (List String), List.Sorted lenLE (sortKPs l)) ∧
      (∀ l : List (List String), (sortKPs l).Perm l) ∧
      (∀ (a b : List String) (l : List (List String)), a.length = b.length →
        [a, b].Sublist l → [a, b].Sublist (sortKPs l)) ∧
      make_sequential [("d", ["a", "b", "c"])] [("d", [["b"], ["b", "c"]])]
        = [("d", [0, 1, 2])] ∧
      make_sequential [("d", ["a", "b", "c"])] [("d", [["b", "c"], ["b"]])]
        = [("d", [0, 1, 2])] := by
  refine ⟨fun l => List.sorted_insertionSort lenLE l,
    fun l => List.perm_insertionSort lenLE l,
    fun a b l hab hsub => ?_, by decide, by decide⟩
  exact List.pair_sublist_insertionSort (Nat.le_of_eq hab) hsub

/-- C2 witness: the universally quantified parts applied at a concrete
keyphrase list, with the stability hypothesis discharged. -/
theorem C2_sort_ascending_stable_longer_wins_witness :
    List.Sorted lenLE (sortKPs [["x", "y"], ["b"], ["c"]]) ∧
      [["b"], ["c"]].Sublist (sortKPs [["x", "y"], ["b"], ["c"]]) :=
  ⟨C2_sort_ascending_stable_longer_wins.1 [["x", "y"], ["b"], ["c"]],
    C2_sort_ascending_stable_longer_wins.2.2.1 ["b"] ["c"]
      [["x", "y"], ["b"], ["c"]] rfl (by decide)⟩

/-! ## C3: end-to-end example -/

/-- C3: for the docstring's example document and keyphrases,
`make_sequential` produces exactly [0,0,0,1,2,0,1]. -/
theorem C3_end_to_end_example :
    make_sequential
        [("doc", ["i", "am", "a", "python", "developer", "since", "today"])]
        [("doc", [["python", "developer"], ["today"]])]
      = [("doc", [0, 0, 0, 1, 2, 0, 1])] := by decide

/-! ## Label-writing characterization and invariants (C4, C8) -/

/-- Reading `List.set` back through `getD`. -/
theorem getD_set {α : Type} (s : List α) (i j : Nat) (v d : α) :
    (s.set i v).getD j d = if i = j ∧ i < s.length then v else s.getD j d := by
  by_cases h1 : i = j
  · subst h1
    by_cases h2 : i < s.length
    · simp [List.getElem?_set, h2]
    · simp [List.getElem?_set, h2, List.getElem?_eq_none (Nat.le_of_not_lt h2)]
  · simp [List.getElem?_set, h1]

/-- The inner `doc_answers_seq[idx + i] = 2` loop, characterized entrywise. -/
theorem foldl_set2_getD :
    ∀ (b a : Nat) (s : List Nat) (idx j : Nat),
      ((List.range' a b).foldl (fun s i => s.set (idx + i) 2) s).getD j 0 =
        if idx + a ≤ j ∧ j < idx + a + b ∧ j < s.length then 2 else s.getD j 0
  | 0, a, s, idx, j => by
    have h : ¬(idx + a ≤ j ∧ j < idx + a + 0 ∧ j < s.length) := by omega
    rw [if_neg h]
    rfl
  | b + 1, a, s, idx, j => by
    rw [List.range'_succ, List.foldl_cons,
      foldl_set2_getD b (a + 1) (s.set (idx + a) 2) idx j,
      List.length_set, getD_set]
    split_ifs <;> first | rfl | omega

/-- The labels written for one accepted occurrence (position idx gets 1,
the following `alen - 1` positions get 2), entrywise. -/
theorem applyKP_getD (seq : List Nat) (idx n j : Nat) :
    (applyKP seq idx n).getD j 0 =
      if j = idx ∧ j < seq.length then 1
      else if idx < j ∧ j < idx + n ∧ j < seq.length then 2
      else seq.getD j 0 := by
  unfold applyKP
  rw [foldl_set2_getD (n - 1) 1 (seq.set idx 1) idx j, List.length_set, getD_set]
  split_ifs <;> first | rfl | omega

theorem length_foldl_set2 (idx : Nat) :
    ∀ (l : List Nat) (s : List Nat),
      (l.foldl (fun s i => s.set (idx + i) 2) s).length = s.length
  | [], _ => rfl
  | i :: is, s => by
    rw [List.foldl_cons, length_foldl_set2 idx is _, List.length_set]

theorem length_applyKP (seq : List Nat) (idx n : Nat) :
    (applyKP seq idx n).length = seq.length := by
  unfold applyKP
  rw [length_foldl_set2, List.length_set]

/-- Every entry of the label sequence is 0, 1 or 2 (`getD` form; positions
past the end read the default 0). -/
def seq012 (s : List Nat) : Prop :=
  ∀ j : Nat, s.getD j 0 = 0 ∨ s.getD j 0 = 1 ∨ s.getD j 0 = 2

/-- Every position labeled 2 is immediately preceded by a position labeled
1 or 2. -/
def insideFollows (s : List Nat) : Prop :=
  ∀ j : Nat, s.getD j 0 = 2 → 0 < j ∧ (s.getD (j - 1) 0 = 1 ∨ s.getD (j - 1) 0 = 2)

theorem seq012_applyKP (s : List Nat) (idx n : Nat) (h : seq012 s) :
    seq012 (applyKP s idx n) := by
  intro j
  rw [applyKP_getD]
  split_ifs
  · right; left; rfl
  · right; right; rfl
  · exact h j

theorem insideFollows_applyKP (s : List Nat) (idx n : Nat) (h : insideFollows s) :
    insideFollows (applyKP s idx n) := by
  intro j hj
  rw [applyKP_getD] at hj
  split_ifs at hj with h1 h2
  · exact absurd hj (by decide)
  · refine ⟨by omega, ?_⟩
    rw [applyKP_getD]
    split_ifs with h3 h4
    · left; rfl
    · right; rfl
    · omega
  · refine ⟨(h j hj).1, ?_⟩
    rw [applyKP_getD]
    split_ifs
    · left; rfl
    · right; rfl
    · exact (h j hj).2

/-- Fold preservation of an invariant. -/
theorem foldl_preserve {α β : Type} (P : β → Prop) (f : β → α → β)
    (hf : ∀ b a, P b → P (f b a)) :
    ∀ (l : List α) (b : β), P b → P (l.foldl f b)
  | [], _, h => h
  | x :: xs, b, h => foldl_preserve P f hf xs (f b x) (hf b x h)

theorem getD_replicate_zero (L j : Nat) :
    (List.replicate L (0 : Nat)).getD j 0 = 0 := by
  rw [List.getD_eq_getElem?_getD, List.getElem?_replicate]
  split_ifs <;> rfl

/-- The label sequence of one document keeps its length and both label
invariants, whatever keyphrase list is processed. -/
theorem msd_invariant (D : List String) (K : List (List String)) :
    (make_sequential_doc D K).length = D.length ∧
      seq012 (make_sequential_doc D K) ∧
      insideFollows (make_sequential_doc D K) := by
  unfold make_sequential_doc
  apply foldl_preserve
    (fun s => s.length = D.length ∧ seq012 s ∧ insideFollows s)
    (fun s a => processAnswer D a s)
  · intro s a hs
    unfold processAnswer
    refine foldl_preserve
      (fun s => s.length = D.length ∧ seq012 s ∧ insideFollows s)
      (fun s idx => if isKPLoop D a idx then applyKP s idx a.length else s)
      ?_ (appearances D a) s hs
    intro t i ht
    dsimp only
    by_cases hc : isKPLoop D a i
    · rw [if_pos hc]
      exact ⟨(length_applyKP t i a.length).trans ht.1,
        seq012_applyKP t i a.length ht.2.1,
        insideFollows_applyKP t i a.length ht.2.2⟩
    · rw [if_neg hc]
      exact ht
  · exact ⟨List.length_replicate _ _,
      fun j => Or.inl (getD_replicate_zero _ j),
      fun j hj => absurd ((getD_replicate_zero _ j).symm.trans hj) (by decide)⟩

theorem mem_of_seq012 (s : List Nat) (h : seq012 s) :
    ∀ v ∈ s, v = 0 ∨ v = 1 ∨ v = 2 := by
  intro v hv
  obtain ⟨i, hi, rfl⟩ := List.mem_iff_getElem.mp hv
  have hd := h i
  rwa [List.getD_eq_getElem?_getD, List.getElem?_eq_getElem hi, Option.getD_some] at hd

/-- The documents store is never written by the loop. -/
theorem msFold_fst :
    ∀ (docs : List (String × List String))
      (st : List (String × List String) × List (String × List (List String)) ×
        List (String × List Nat)),
      (docs.foldl msStep st).1 = st.1
  | [], _ => rfl
  | kd :: rest, st => by
    rw [List.foldl_cons, msFold_fst rest (msStep st kd)]
    rfl

/-- Structure of the output component of the fold: one entry per document,
in order, each a `make_sequential_doc` of that document's tokens (against
the keyphrase list looked up in the evolving answers store). -/
theorem msFold_out :
    ∀ (docs : List (String × List String))
      (st : List (String × List String) × List (String × List (List String)) ×
        List (String × List Nat)),
      ∃ ext : List (String × List Nat),
        (docs.foldl msStep st).2.2 = st.2.2 ++ ext ∧ ext.length = docs.length ∧
        ∀ i, i < docs.length → ∃ L, ext.getD i ("", []) =
          ((docs.getD i ("", [])).1,
            make_sequential_doc (docs.getD i ("", [])).2 L)
  | [], st => ⟨[], by simp, rfl, fun i hi => absurd hi (by simp)⟩
  | kd :: rest, st => by
    obtain ⟨ext, he, hlen, hpos⟩ := msFold_out rest (msStep st kd)
    refine ⟨(kd.1, make_sequential_doc kd.2
        (sortKPs ((st.2.1.lookup kd.1).getD []))) :: ext, ?_, by simp [hlen], ?_⟩
    · rw [List.foldl_cons, he]
      show st.2.2 ++ [(kd.1, _)] ++ ext = st.2.2 ++ _ :: ext
      rw [List.append_assoc, List.singleton_append]
    · intro i hi
      match i with
      | 0 => exact ⟨sortKPs ((st.2.1.lookup kd.1).getD []), rfl⟩
      | Nat.succ i =>
        rw [List.getD_cons_succ, List.getD_cons_succ]
        exact hpos i (by simp only [List.length_cons] at hi; omega)

/-- C4: the label map returned by `make_sequential` has one entry per
document, under the same key; each label sequence has the document's
length, entries only in \x7b0,1,2\x7d, and every 2 immediately preceded by
a 1 or a 2. -/
theorem C4_shape_and_invariants (documents : List (String × List String))
    (answers : List (String × List (List String))) :
    (make_sequential documents answers).length = documents.length ∧
    ∀ i, i < documents.length →
      ((make_sequential documents answers).getD i ("", [])).1
          = (documents.getD i ("", [])).1 ∧
      ((make_sequential documents answers).getD i ("", [])).2.length
          = (documents.getD i ("", [])).2.length ∧
      (∀ v ∈ ((make_sequential documents answers).getD i ("", [])).2,
        v = 0 ∨ v = 1 ∨ v = 2) ∧
      insideFollows ((make_sequential documents answers).getD i ("", [])).2 := by
  obtain ⟨ext, he, hlen, hpos⟩ := msFold_out documents (documents, answers, [])
  have hms : make_sequential documents answers = ext := by
    unfold make_sequential make_sequential_st
    rw [he, List.nil_append]
  constructor
  · rw [hms, hlen]
  · intro i hi
    obtain ⟨L, hL⟩ := hpos i hi
    rw [hms, hL]
    have h := msd_invariant (documents.getD i ("", [])).2 L
    exact ⟨rfl, h.1, mem_of_seq012 _ h.2.1, h.2.2⟩

/-- C4 witness: shape facts at a concrete input. -/
theorem C4_shape_and_invariants_witness :
    (make_sequential [("d", ["a", "b", "c"])] [("d", [["b"], ["b", "c"]])]).length
        = 1 ∧
      ((make_sequential [("d", ["a", "b", "c"])]
        [("d", [["b"], ["b", "c"]])]).getD 0 ("", [])).2.length = 3 := by
  have h := C4_shape_and_invariants [("d", ["a", "b", "c"])]
    [("d", [["b"], ["b", "c"]])]
  exact ⟨h.1, (h.2 0 (by decide)).2.1⟩

/-! ## C8: no partial-match credit; silent all-outside output -/

theorem processAnswer_id (D a : List String) (s : List Nat)
    (h : ∀ idx ∈ appearances D a, isKPLoop D a idx = false) :
    processAnswer D a s = s := by
  unfold processAnswer
  suffices H : ∀ (l : List Nat) (s : List Nat), (∀ idx ∈ l, isKPLoop D a idx = false) →
      l.foldl (fun s idx => if isKPLoop D a idx then applyKP s idx a.length else s) s
        = s from H _ s h
  intro l
  induction l with
  | nil => intro s _; rfl
  | cons x xs ih =>
    intro s hx
    rw [List.foldl_cons, if_neg ?hne]
    case hne =>
      rw [hx x (List.mem_cons_self x xs)]
      exact Bool.false_ne_true
    exact ih s (fun i hi => hx i (List.mem_cons_of_mem x hi))

/-- C8: an occurrence whose keyphrase would run past the end of the
document never counts as a match (no partial credit); and a document in
which no keyphrase occurrence is accepted — in particular one shorter than
every keyphrase — yields the all-outside label sequence, with no failure
(the embedding is total). -/
theorem C8_no_overrun_and_silent_all_outside :
    (∀ (D k : List String) (idx : Nat), k ≠ [] → D.length < idx + k.length →
      ¬(idx ∈ appearances D k ∧ isKPLoop D k idx = true)) ∧
    (∀ (D : List String) (K : List (List String)),
      (∀ k ∈ K, ∀ idx, ¬(idx ∈ appearances D k ∧ isKPLoop D k idx = true)) →
      make_sequential_doc D K = List.replicate D.length 0) := by
  constructor
  · rintro D k idx hk hover ⟨hmem, hkp⟩
    have hlen : 0 < k.length := List.length_pos.mpr hk
    rcases Nat.lt_or_ge k.length 2 with h2 | h2
    · have hidx := ((mem_appearances D k idx).mp hmem).1
      omega
    · rw [isKPLoop_eq D k idx h2, Bool.and_eq_true, decide_eq_true_eq] at hkp
      have := hkp.1
      omega
  · intro D K h
    unfold make_sequential_doc
    suffices H : ∀ (K' : List (List String)) (s : List Nat),
        (∀ k ∈ K', ∀ idx, ¬(idx ∈ appearances D k ∧ isKPLoop D k idx = true)) →
        K'.foldl (fun s a => processAnswer D a s) s = s from H K _ h
    intro K'
    induction K' with
    | nil => intro s _; rfl
    | cons a as ih =>
      intro s hs
      rw [List.foldl_cons, processAnswer_id D a s ?hall]
      case hall =>
        intro idx hidx
        cases hkp : isKPLoop D a idx with
        | false => rfl
        | true => exact absurd ⟨hidx, hkp⟩ (hs a (List.mem_cons_self a as) idx)
      exact ih s (fun k hk => hs k (List.mem_cons_of_mem a hk))

/-- C8 witness: a document shorter than its only keyphrase gets the
all-outside label sequence. -/
theorem C8_no_overrun_and_silent_all_outside_witness :
    make_sequential_doc ["a"] [["a", "b"]] = List.replicate 1 0 := by
  apply C8_no_overrun_and_silent_all_outside.2 ["a"] [["a", "b"]]
  intro k hk idx
  rw [List.mem_singleton] at hk
  subst hk
  exact C8_no_overrun_and_silent_all_outside.1 ["a"] ["a", "b"] idx (by decide)
    (by simp only [List.length_cons, List.length_nil]; omega)

/-! ## `make_categorical` (lines 522-546) and the padding used by
`prepare_sequential` (lines 416-427) -/

/-- The one-hot row `np_utils.to_categorical` produces for label v with
`num_classes = w`. -/
def oneHot (w v : Nat) : List Nat :=
  (List.range w).map (fun c => if c = v then 1 else 0)

/-- The quantity `num_categories - 1`: the maximum label over the whole batch,
`max([item for sublist in x for item in sublist])` (line 534). Python's
`max` raises on an empty batch; the fold with base 0 agrees with it on the
non-empty batches the claims quantify over. -/
def batchMax (x : List (List Nat)) : Nat := x.flatten.foldl max 0

/-- The transform `make_categorical(x)` (lines 522-546): one-hot expansion of a 2-D label
batch with width `max(batch) + 1`. The `np.zeros((len(x), len(x[0]),
num_categories))` container with row assignment succeeds exactly on
rectangular input, where it equals this map. -/
def make_categorical (x : List (List Nat)) : List (List (List Nat)) :=
  x.map (fun doc => doc.map (fun v => oneHot (batchMax x + 1) v))

/-- The padding `pad_sequences(., maxlen, padding='post', truncating='post')` on label
sequences: keep the first `maxlen` entries, then pad with zeros to
`maxlen`. -/
def pad_sequences_post (maxlen : Nat) (seqs : List (List Nat)) : List (List Nat) :=
  seqs.map (fun s => s.take maxlen ++ List.replicate (maxlen - s.length) 0)

/-- The label tensor `prepare_sequential` builds for one split (lines
386-427): collect each document's label sequence from `make_sequential`'s
result in document order, pad, then one-hot expand — a separate
`make_categorical` call per split. -/
def split_y (docs : List (String × List String))
    (answers : List (String × List (List String))) (maxlen : Nat) :
    List (List (List Nat)) :=
  make_categorical (pad_sequences_post maxlen
    (docs.map (fun kd => ((make_sequential docs answers).lookup kd.1).getD [])))

/-- The number of classes of a one-hot label tensor: the width of its first
one-hot row. -/
def numClasses (y : List (List (List Nat))) : Nat := ((y.headD []).headD []).length

theorem le_foldl_max : ∀ (l : List Nat) (b : Nat), b ≤ l.foldl max b
  | [], b => Nat.le_refl b
  | x :: xs, b => Nat.le_trans (Nat.le_max_left b x) (le_foldl_max xs (max b x))

theorem mem_le_foldl_max : ∀ (l : List Nat) (b v : Nat), v ∈ l → v ≤ l.foldl max b
  | [], _, _, hv => absurd hv (List.not_mem_nil _)
  | x :: xs, b, v, hv => by
    rw [List.foldl_cons]
    rcases List.mem_cons.mp hv with rfl | h
    · exact Nat.le_trans (Nat.le_max_right b v) (le_foldl_max xs (max b v))
    · exact mem_le_foldl_max xs (max b x) v h

theorem foldl_max_mem : ∀ (l : List Nat) (b : Nat), l.foldl max b = b ∨ l.foldl max b ∈ l
  | [], _ => Or.inl rfl
  | x :: xs, b => by
    rw [List.foldl_cons]
    rcases foldl_max_mem xs (max b x) with h | h
    · rw [h]
      rcases max_choice b x with h' | h'
      · exact Or.inl h'
      · exact Or.inr (by rw [h']; exact List.mem_cons_self x xs)
    · exact Or.inr (List.mem_cons_of_mem x h)

theorem oneHot_length (w v : Nat) : (oneHot w v).length = w := by
  unfold oneHot
  rw [List.length_map, List.length_range]

theorem oneHot_getD (w v c : Nat) (hc : c < w) :
    (oneHot w v).getD c 0 = if c = v then 1 else 0 := by
  unfold oneHot
  rw [List.getD_eq_getElem?_getD, List.getElem?_map, List.getElem?_range hc]
  rfl

theorem getD_map_lt {α β : Type} (f : α → β) (l : List α) (i : Nat)
    (h : i < l.length) (dA : α) (dB : β) :
    (l.map f).getD i dB = f (l.getD i dA) := by
  rw [List.getD_eq_getElem?_getD, List.getD_eq_getElem?_getD, List.getElem?_map,
    List.getElem?_eq_getElem h]
  rfl

/-- C7: on a non-empty rectangular 2-D batch with non-empty rows,
`make_categorical` returns a 3-D array of shape (|x|, |x[0]|, w) with
w = batch maximum + 1 (the stated width bounds every label and is attained
in the batch), and entry [d][t] is the one-hot vector with a 1 exactly at
position x[d][t]. -/
theorem C7_make_categorical_shape_and_onehot (x : List (List Nat))
    (hx : x ≠ []) (hrow : ∀ r ∈ x, r ≠ [])
    (hrect : ∀ r ∈ x, r.length = (x.headD []).length) :
    (make_categorical x).length = x.length ∧
    (∀ r ∈ make_categorical x, r.length = (x.headD []).length) ∧
    (∀ r ∈ make_categorical x, ∀ e ∈ r, e.length = batchMax x + 1) ∧
    (∀ v ∈ x.flatten, v ≤ batchMax x) ∧
    batchMax x ∈ x.flatten ∧
    (∀ d t c, d < x.length → t < (x.getD d []).length → c < batchMax x + 1 →
      (((make_categorical x).getD d []).getD t []).getD c 0 =
        if c = (x.getD d []).getD t 0 then 1 else 0) := by
  refine ⟨?_, ?_, ?_, ?_, ?_, ?_⟩
  · unfold make_categorical
    exact List.length_map x _
  · intro r hr
    obtain ⟨doc, hdoc, rfl⟩ := List.mem_map.mp hr
    rw [List.length_map]
    exact hrect doc hdoc
  · intro r hr e he
    obtain ⟨doc, _, rfl⟩ := List.mem_map.mp hr
    obtain ⟨v, _, rfl⟩ := List.mem_map.mp he
    exact oneHot_length _ v
  · intro v hv
    exact mem_le_foldl_max x.flatten 0 v hv
  · rcases foldl_max_mem x.flatten 0 with h0 | hmem
    · obtain ⟨r, rest, rfl⟩ := List.exists_cons_of_ne_nil hx
      obtain ⟨a, as, hr⟩ :=
        List.exists_cons_of_ne_nil (hrow r (List.mem_cons_self r rest))
      have ha : a ∈ (r :: rest).flatten := by
        rw [List.flatten_cons]
        exact List.mem_append_left _ (hr ▸ List.mem_cons_self a as)
      have hle := mem_le_foldl_max ((r :: rest).flatten) 0 a ha
      have ha0 : a = batchMax (r :: rest) := by
        unfold batchMax
        omega
      exact ha0 ▸ ha
    · exact hmem
  · intro d t c hd ht hc
    unfold make_categorical
    rw [getD_map_lt (fun doc => doc.map (fun v => oneHot (batchMax x + 1) v))
      x d hd [] []]
    rw [getD_map_lt (fun v => oneHot (batchMax x + 1) v) (x.getD d []) t ht 0 []]
    exact oneHot_getD _ _ c hc

/-- C7 witness: shape and attained maximum on a concrete batch. -/
theorem C7_make_categorical_shape_and_onehot_witness :
    (make_categorical [[1, 2, 0]]).length = 1 ∧
      batchMax [[1, 2, 0]] ∈ ([[1, 2, 0]] : List (List Nat)).flatten := by
  have h := C7_make_categorical_shape_and_onehot [[1, 2, 0]] (by decide)
    (by decide) (by decide)
  exact ⟨h.1, h.2.2.2.2.1⟩

/-! ## C6: splits one-hot-expanded by separate `make_categorical` calls -/

/-- C6 counterexample: `prepare_sequential` expands each split with its own
`make_categorical` call, so the number of classes is computed per split. On
this input the train split (containing an inside-keyphrase label 2) gets 3
classes while the test split (whose labels never exceed 1) gets 2: the
splits do not share a consistent number of classes. -/
theorem C6_separate_splits_disagree :
    numClasses (split_y [("t", ["x", "y"])] [("t", [["x", "y"]])] 2) = 3 ∧
      numClasses (split_y [("s", ["x"])] [("s", [["x"]])] 2) = 2 ∧
      numClasses (split_y [("t", ["x", "y"])] [("t", [["x", "y"]])] 2) ≠
        numClasses (split_y [("s", ["x"])] [("s", [["x"]])] 2) := by
  refine ⟨by decide, by decide, by decide⟩

theorem numClasses_make_categorical (x : List (List Nat)) (hx : x ≠ [])
    (h0 : x.headD [] ≠ []) :
    numClasses (make_categorical x) = batchMax x + 1 := by
  obtain ⟨p, ps, rfl⟩ := List.exists_cons_of_ne_nil hx
  obtain ⟨a, as, hp⟩ := List.exists_cons_of_ne_nil (by simpa using h0)
  unfold numClasses make_categorical
  rw [List.map_cons, List.headD_cons, hp, List.map_cons, List.headD_cons,
    oneHot_length]

theorem pad_head_length (maxlen : Nat) (s : List Nat) :
    (s.take maxlen ++ List.replicate (maxlen - s.length) 0).length = maxlen := by
  rw [List.length_append, List.length_take, List.length_replicate]
  omega

/-- C6 amended: each split's one-hot width is computed independently by its
own `make_categorical` call, as that split's padded-batch maximum label
plus one; separately expanded splits therefore agree exactly when their
padded batches attain the same maximum label, and can otherwise
disagree. -/
theorem C6_amended_classes_eq_split_max_succ (docs : List (String × List String))
    (answers : List (String × List (List String))) (maxlen : Nat)
    (hd : docs ≠ []) (hm : 0 < maxlen) :
    numClasses (split_y docs answers maxlen) =
      batchMax (pad_sequences_post maxlen
        (docs.map (fun kd => ((make_sequential docs answers).lookup kd.1).getD [])))
        + 1 := by
  unfold split_y
  refine numClasses_make_categorical _ ?_ ?_
  · unfold pad_sequences_post
    simp only [ne_eq, List.map_eq_nil_iff]
    exact hd
  · obtain ⟨kd, rest, rfl⟩ := List.exists_cons_of_ne_nil hd
    unfold pad_sequences_post
    simp only [List.map_cons, List.headD_cons]
    intro hnil
    have hlen := pad_head_length maxlen
      (((make_sequential (kd :: rest) answers).lookup kd.1).getD [])
    rw [hnil] at hlen
    simp only [List.length_nil] at hlen
    omega

/-- C6 amended witness. -/
theorem C6_amended_classes_eq_split_max_succ_witness :
    numClasses (split_y [("t", ["x", "y"])] [("t", [["x", "y"]])] 2) =
      batchMax (pad_sequences_post 2
        ([("t", ["x", "y"])].map
          (fun kd =>
            ((make_sequential [("t", ["x", "y"])] [("t", [["x", "y"]])]).lookup
              kd.1).getD []))) + 1 :=
  C6_amended_classes_eq_split_max_succ [("t", ["x", "y"])] [("t", [["x", "y"]])] 2
    (by decide) (by decide)

/-! ## C9: the embedding matrix built in `prepare_sequential`
(lines 439-453)

`word_index` comes from `dict.Dictionary`, whose source is not part of
this repository. Modelled from the spec: the Dictionary assigns indices
starting at 1 (index 0 is reserved and never assigned to a real token),
each word a distinct index; `word_index` is the association list of
(word, index) pairs in iteration order. Word vectors only ever get copied,
so their entries are modelled as integers. -/

/-- The all-zero row of `np.zeros((num_words, embeddings_size))`. -/
def zeroRow (dim : Nat) : List Int := List.replicate dim 0

/-- One iteration of the `for word, i in word_index.items()` loop
(lines 447-453): skip indices at or above `num_words`, copy the pretrained
vector into row i when one exists, leave the matrix unchanged otherwise. -/
def embStep (num_words : Nat) (emb : String → Option (List Int))
    (m : List (List Int)) (wi : String × Nat) : List (List Int) :=
  if num_words ≤ wi.2 then m
  else
    match emb wi.1 with
    | some v => m.set wi.2 v
    | none => m

/-- The embedding matrix of `prepare_sequential` (lines 439-453):
`num_words = min(max_vocabulary_size, 1 + len(word_index))` rows, started
all-zero, filled by the loop above. -/
def build_embedding_matrix (word_index : List (String × Nat))
    (emb : String → Option (List Int)) (max_vocabulary_size dim : Nat) :
    List (List Int) :=
  word_index.foldl (embStep (min max_vocabulary_size (1 + word_index.length)) emb)
    (List.replicate (min max_vocabulary_size (1 + word_index.length)) (zeroRow dim))

theorem length_embFold (nw : Nat) (emb : String → Option (List Int)) :
    ∀ (l : List (String × Nat)) (m : List (List Int)),
      (l.foldl (embStep nw emb) m).length = m.length
  | [], _ => rfl
  | p :: ps, m => by
    rw [List.foldl_cons, length_embFold nw emb ps _]
    unfold embStep
    split_ifs
    · rfl
    · cases hemb : emb p.1 with
      | none => rfl
      | some v =>
        simp only [hemb]
        exact List.length_set m p.2 v

/-- Rows whose index never occurs in the processed entries are left as the
initial matrix has them. -/
theorem embFold_untouched (nw : Nat) (emb : String → Option (List Int)) (i : Nat) :
    ∀ (l : List (String × Nat)) (m : List (List Int)), i ∉ l.map Prod.snd →
      (l.foldl (embStep nw emb) m).getD i [] = m.getD i []
  | [], _, _ => rfl
  | p :: ps, m, h => by
    have hi : i ≠ p.2 ∧ i ∉ ps.map Prod.snd := by
      simp only [List.map_cons, List.mem_cons, not_or] at h
      exact h
    rw [List.foldl_cons, embFold_untouched nw emb i ps _ hi.2]
    unfold embStep
    split_ifs
    · rfl
    · cases hemb : emb p.1 with
      | none => rfl
      | some v =>
        simp only [hemb]
        rw [getD_set]
        rw [if_neg (fun hc => hi.1 hc.1.symm)]

/-- One step of the loop, read back at the entry's own index: the row
becomes the word's vector when one exists and keeps its value otherwise. -/
theorem embStep_getD (nw : Nat) (emb : String → Option (List Int))
    (m : List (List Int)) (w : String) (i : Nat) (hi : i < nw)
    (hl : i < m.length) :
    (embStep nw emb m (w, i)).getD i [] = (emb w).getD (m.getD i []) := by
  unfold embStep
  rw [if_neg (Nat.not_le.mpr hi)]
  dsimp only
  cases hemb : emb w with
  | none =>
    simp only [hemb]
    rfl
  | some v =>
    simp only [hemb]
    rw [getD_set, if_pos ⟨rfl, hl⟩]
    rfl

/-- The row of a word whose index is below `num_words` ends up holding its
pretrained vector, or stays zero when there is none. -/
theorem embFold_row (nw : Nat) (emb : String → Option (List Int))
    (word_index : List (String × Nat)) (dim : Nat)
    (h2 : (word_index.map Prod.snd).Nodup)
    (w : String) (i : Nat) (hmem : (w, i) ∈ word_index) (hi : i < nw) :
    (word_index.foldl (embStep nw emb) (List.replicate nw (zeroRow dim))).getD i []
      = (emb w).getD (zeroRow dim) := by
  obtain ⟨s, t, rfl⟩ := List.append_of_mem hmem
  have hs : i ∉ s.map Prod.snd ∧ i ∉ t.map Prod.snd := by
    rw [List.map_append, List.map_cons] at h2
    rcases List.nodup_append.mp h2 with ⟨_, hcons, hdisj⟩
    exact ⟨fun hin => hdisj hin (List.mem_cons_self _ _),
      (List.nodup_cons.mp hcons).1⟩
  rw [List.foldl_append, List.foldl_cons,
    embFold_untouched nw emb i t _ hs.2]
  have hrow : (s.foldl (embStep nw emb) (List.replicate nw (zeroRow dim))).getD i []
      = zeroRow dim := by
    rw [embFold_untouched nw emb i s _ hs.1, List.getD_eq_getElem?_getD,
      List.getElem?_replicate, if_pos hi]
    rfl
  have hlen : (s.foldl (embStep nw emb) (List.replicate nw (zeroRow dim))).length
      = nw := by
    rw [length_embFold, List.length_replicate]
  rw [embStep_getD nw emb _ w i hi (by rw [hlen]; exact hi), hrow]

/-- C9: the embedding matrix has `num_words = min(max_vocabulary_size,
1 + |word_index|)` rows — indices at or beyond `num_words` are never
materialized; row 0 is all-zero; and a vocabulary word's row (for an index
below `num_words`) holds its pretrained vector when one exists and stays
all-zero otherwise. -/
theorem C9_embedding_matrix_rows (word_index : List (String × Nat))
    (emb : String → Option (List Int)) (maxV dim : Nat) (hV : 1 ≤ maxV)
    (h1 : ∀ p ∈ word_index, 1 ≤ p.2)
    (h2 : (word_index.map Prod.snd).Nodup) :
    (build_embedding_matrix word_index emb maxV dim).length
        = min maxV (1 + word_index.length) ∧
      (build_embedding_matrix word_index emb maxV dim).getD 0 [] = zeroRow dim ∧
      ∀ p ∈ word_index, p.2 < min maxV (1 + word_index.length) →
        (build_embedding_matrix word_index emb maxV dim).getD p.2 []
          = (emb p.1).getD (zeroRow dim) := by
  refine ⟨?_, ?_, ?_⟩
  · unfold build_embedding_matrix
    rw [length_embFold, List.length_replicate]
  · unfold build_embedding_matrix
    rw [embFold_untouched _ emb 0 word_index _ ?h0]
    case h0 =>
      intro hin
      obtain ⟨p, hp, hp0⟩ := List.mem_map.mp hin
      have := h1 p hp
      omega
    rw [List.getD_eq_getElem?_getD, List.getElem?_replicate,
      if_pos (by omega)]
    rfl
  · intro p hp hlt
    obtain ⟨w, i⟩ := p
    unfold build_embedding_matrix
    exact embFold_row (min maxV (1 + word_index.length)) emb word_index dim h2
      w i hp hlt

/-- C9 witness: a two-word vocabulary where only the first word has a
pretrained vector. -/
theorem C9_embedding_matrix_rows_witness :
    (build_embedding_matrix [("hello", 1), ("hi", 2)]
        (fun w => if w = "hello" then some [3, 4] else none) 50 2).getD 0 []
        = zeroRow 2 ∧
      (build_embedding_matrix [("hello", 1), ("hi", 2)]
        (fun w => if w = "hello" then some [3, 4] else none) 50 2).getD 1 []
        = [3, 4] ∧
      (build_embedding_matrix [("hello", 1), ("hi", 2)]
        (fun w => if w = "hello" then some [3, 4] else none) 50 2).getD 2 []
        = zeroRow 2 := by
  have h := C9_embedding_matrix_rows [("hello", 1), ("hi", 2)]
    (fun w => if w = "hello" then some [3, 4] else none) 50 2
    (by omega) (by decide) (by decide)
  refine ⟨h.2.1, ?_, ?_⟩
  · have h3 := h.2.2 ("hello", 1) (by decide) (by decide)
    rw [h3]
    decide
  · have h3 := h.2.2 ("hi", 2) (by simp) (by decide)
    rw [h3]
    decide

/-! ## C10: the in-place sort of `answers[key]` is a frame effect -/

theorem lookup_astore {α : Type} (l : List (String × α)) (k key : String) (v : α) :
    (astore l k v).lookup key =
      if key = k then (l.lookup key).map (fun _ => v) else l.lookup key := by
  induction l with
  | nil =>
    simp only [astore, List.map_nil, List.lookup_nil, Option.map_none]
    split_ifs <;> rfl
  | cons p ps ih =>
    obtain ⟨pk, pv⟩ := p
    simp only [astore] at ih ⊢
    rw [List.map_cons]
    by_cases hpk : pk = k
    · subst hpk
      rw [if_pos (beq_self_eq_true pk)]
      by_cases hk : key = pk
      · subst hk
        simp [List.lookup_cons]
      · have hbeq : (key == pk) = false := beq_eq_false_iff_ne.mpr hk
        simp only [List.lookup_cons, hbeq]
        rw [ih, if_neg hk]
    · rw [if_neg (by simp [hpk])]
      by_cases hk : key = pk
      · subst hk
        have hnk : ¬(key = k) := fun h => hpk h
        simp only [List.lookup_cons, beq_self_eq_true, if_neg hnk]
      · have hbeq : (key == pk) = false := beq_eq_false_iff_ne.mpr hk
        simp only [List.lookup_cons, hbeq]
        rw [ih]

/-- The answers store after the loop equals the fold of the per-key in-place
sorts. -/
theorem msFold_snd :
    ∀ (docs : List (String × List String))
      (st : List (String × List String) × List (String × List (List String)) ×
        List (String × List Nat)),
      (docs.foldl msStep st).2.1 =
        docs.foldl
          (fun a kd => astore a kd.1 (sortKPs ((a.lookup kd.1).getD []))) st.2.1
  | [], _ => rfl
  | kd :: rest, st => by
    rw [List.foldl_cons, List.foldl_cons, msFold_snd rest (msStep st kd)]
    rfl

/-- Looking up any key in the final answers store: keys of processed
documents hold their sorted keyphrase list, all other keys are
untouched. -/
theorem ansFold_lookup (key : String) :
    ∀ (docs : List (String × List String))
      (ans : List (String × List (List String))),
      (docs.map Prod.fst).Nodup →
      (docs.foldl
          (fun a kd => astore a kd.1 (sortKPs ((a.lookup kd.1).getD []))) ans).lookup
          key =
        if key ∈ docs.map Prod.fst
        then (ans.lookup key).map sortKPs
        else ans.lookup key
  | [], ans, _ => by
    rw [if_neg (by simp)]
    rfl
  | kd :: rest, ans, hnd => by
    rw [List.foldl_cons]
    have hnd' : (rest.map Prod.fst).Nodup := by
      rw [List.map_cons] at hnd
      exact hnd.of_cons
    rw [ansFold_lookup key rest _ hnd']
    by_cases hkr : key ∈ rest.map Prod.fst
    · rw [if_pos hkr,
        if_pos (by rw [List.map_cons]; exact List.mem_cons_of_mem _ hkr)]
      have hne : key ≠ kd.1 := by
        rw [List.map_cons] at hnd
        intro he
        exact (List.nodup_cons.mp hnd).1 (he ▸ hkr)
      rw [lookup_astore, if_neg hne]
    · rw [if_neg hkr]
      by_cases hk : key = kd.1
      · rw [if_pos (by rw [List.map_cons, hk]; exact List.mem_cons_self _ _)]
        rw [lookup_astore, if_pos hk, hk]
        cases hl : ans.lookup kd.1 with
        | none => rfl
        | some w => rfl
      · rw [if_neg (by
          rw [List.map_cons]
          intro h
          rcases List.mem_cons.mp h with h' | h'
          · exact hk h'
          · exact hkr h')]
        rw [lookup_astore, if_neg hk]

/-- C10: `make_sequential` sorts each processed document's keyphrase list
`answers[key]` in place (ascending by length, stable), so the caller-owned
answers store afterwards maps every document key to the sorted list and
every other key to its untouched list, while the documents store — and so
every document token sequence — is left unchanged. -/
theorem C10_inplace_sort_frame (documents : List (String × List String))
    (answers : List (String × List (List String)))
    (hnd : (documents.map Prod.fst).Nodup) :
    (make_sequential_st documents answers).1 = documents ∧
      ∀ key : String,
        ((make_sequential_st documents answers).2.1).lookup key =
          if key ∈ documents.map Prod.fst
          then (answers.lookup key).map sortKPs
          else answers.lookup key := by
  constructor
  · unfold make_sequential_st
    exact msFold_fst documents _
  · intro key
    unfold make_sequential_st
    rw [msFold_snd documents _]
    exact ansFold_lookup key documents answers hnd

/-- C10 witness: after the call the stored keyphrase list is reordered
(shorter first), the documents store is unchanged. -/
theorem C10_inplace_sort_frame_witness :
    (make_sequential_st [("d", ["a"])] [("d", [["x", "y"], ["z"]])]).1
        = [("d", ["a"])] ∧
      ((make_sequential_st [("d", ["a"])]
          [("d", [["x", "y"], ["z"]])]).2.1).lookup "d"
        = some [["z"], ["x", "y"]] := by
  have h := C10_inplace_sort_frame [("d", ["a"])] [("d", [["x", "y"], ["z"]])]
    (by decide)
  refine ⟨h.1, ?_⟩
  rw [h.2 "d", if_pos (by decide)]
  decide

end Preproc
